import Mathlib

/-!
Verification of the agent workflow described in the repository
(`ai-researcher/lib/research-provider.tsx` and the embedded LangGraph
agent sketch).  The agent graph, the `search` tool, the router
`continue_or_respond`, and the React research provider are translated
from the source; the generic execution engine, graph compiler, tool
node and checkpointer are part of the LangGraph library (not in the
repository source) and are modelled from the specification.
-/

/-- Message roles, from the data model (`user`, `assistant`, `tool`, `system`). -/
inductive Role where
  | user
  | assistant
  | tool
  | system
deriving DecidableEq, Repr

/-- One requested tool invocation: an id, a tool name and serialized arguments. -/
structure ToolCall where
  id : String
  name : String
  args : String
deriving DecidableEq, Repr

/-- One turn in the exchange, immutable once created.  `tool_calls` is the
ordered sequence of requested tool invocations (empty except on
assistant messages that want to act); `tool_call_id` is present only on
tool-result messages. -/
structure Message where
  role : Role
  content : String
  tool_calls : List ToolCall
  tool_call_id : Option String
deriving DecidableEq, Repr

/-- A default message, used only as the `getD` fallback. -/
def defaultMessage : Message := ⟨Role.user, "", [], none⟩

instance : Inhabited Message := ⟨defaultMessage⟩

/-- `MessagesState`: the state threaded through the graph, an ordered log of
messages (LangGraph's `MessagesState`). -/
structure MessagesState where
  messages : List Message
deriving DecidableEq, Repr

/-- Character-list version of containment of `needle` as a contiguous
substring, embedding Python's `needle in haystack` operator on strings. -/
def charListStartsWith : List Char → List Char → Bool
  | _, [] => true
  | [], _ :: _ => false
  | a :: as, b :: bs => a == b && charListStartsWith as bs

/-- `charListContains hay needle` embeds Python's `needle in hay`. -/
def charListContains : List Char → List Char → Bool
  | hay, needle =>
    charListStartsWith hay needle ||
      match hay with
      | [] => false
      | _ :: t => charListContains t needle

/-- Python `needle in haystack` for strings. -/
def strContains (hay needle : String) : Bool :=
  charListContains hay.toList needle.toList

/-- Python's `str.lower()` (ASCII case folding), character by character. -/
def strToLower (s : String) : String :=
  (s.toList.map Char.toLower).asString

/-- The `search` tool, translated from the source:
`if "sf" in query.lower() or "san francisco" in query.lower():`
returns the foggy line, otherwise the sunny line. -/
def search (query : String) : String :=
  if strContains (strToLower query) "sf" || strContains (strToLower query) "san francisco" then
    "It's 60 degrees and foggy."
  else
    "It's 90 degrees and sunny."

/-- The nodes of the workflow graph declared in the source:
`workflow.add_node("tools", tool_node)` and `workflow.add_node("agent", call_model)`. -/
inductive Node where
  | agent
  | tools
deriving DecidableEq, Repr

/-- A routing outcome: continue at a node, or the terminal marker `END`. -/
inductive Route where
  | toNode (n : Node)
  | terminal
deriving DecidableEq, Repr

/-- `call_model`, translated from the source: invoke the model on the
current message list and return the singleton update
`{"messages": [response]}` to be appended to the log.  The model itself is
an opaque capability, passed as a function. -/
def call_model (model : List Message → Message) (state : MessagesState) : List Message :=
  [model state.messages]

/-- `continue_or_respond`, translated from the source: inspect
`messages[-1]`; if its `tool_calls` list is nonempty route to `"tools"`,
otherwise return `END`.  Python's `messages[-1]` faults on an empty list,
modelled as `none`. -/
def continue_or_respond (state : MessagesState) : Option Route :=
  match state.messages.getLast? with
  | none => none
  | some last_message =>
    if last_message.tool_calls.isEmpty then
      some Route.terminal
    else
      some (Route.toNode Node.tools)

/-- The compiled graph's successor function, from the edge declarations in
the source: `add_edge(START, "agent")` makes `agent` the entry,
`add_conditional_edges("agent", continue_or_respond)` attaches the router
to `agent`, and `add_edge("tools", 'agent')` sends `tools` back to `agent`
unconditionally. -/
def nextRoute : Node → MessagesState → Option Route
  | Node.agent, s => continue_or_respond s
  | Node.tools, _ => some (Route.toNode Node.agent)

/-- The entry node of the workflow, from `workflow.add_edge(START, "agent")`. -/
def entryNode : Node := Node.agent

/-- The tool calls requested by the most recent message of the log
(empty when the log is empty). -/
def lastToolCalls (msgs : List Message) : List ToolCall :=
  match msgs.getLast? with
  | none => []
  | some m => m.tool_calls

/-- Modelled from the spec: the Tool Node (LangGraph's prebuilt `ToolNode`,
not part of the repository source) reads the most recent assistant
message's `tool_calls` and produces one tool-result message per call, in
the order of the originating `tool_calls` sequence.  The per-call
execution is the opaque capability `exec`. -/
def tool_node (exec : ToolCall → Message) (state : MessagesState) : List Message :=
  (lastToolCalls state.messages).map exec

/-- Modelled from the spec: the tool registry of this workflow holds the
single tool `search`; resolving a name not in the registry is recorded as
an error tool-result rather than a fatal failure. -/
def runTool (name arguments : String) : String :=
  if name = "search" then search arguments else "Error: tool not found"

/-- Modelled from the spec: executing one tool call yields one tool-result
message (`role = tool`, `tool_call_id` referencing the originating call,
`content` the serialized result). -/
def searchExec (c : ToolCall) : Message :=
  ⟨Role.tool, runTool c.name c.args, [], some c.id⟩

example : search "sf weather" = "It's 60 degrees and foggy." := by decide
example : search "nyc weather" = "It's 90 degrees and sunny." := by decide
example : search "SAN FRANCISCO" = "It's 60 degrees and foggy." := by decide

/-- Errors of the execution engine, from the spec's error taxonomy.
`routerFault` models the router faulting on an empty message log
(Python's `messages[-1]` on an empty list). -/
inductive EngineError where
  | stepLimitExceeded
  | routerFault
deriving DecidableEq, Repr

/-- Modelled from the spec: a Checkpoint is an immutable snapshot of the
message log with a monotonically increasing sequence number; as the
authoritative resumption point it also records the routing decision taken
after its step (the pending node, or the terminal marker). -/
structure Checkpoint where
  seq : Nat
  messages : List Message
  next : Option Route
deriving DecidableEq, Repr

/-- Invoking one node of the workflow: `agent` runs `call_model`, `tools`
runs `tool_node`; the result is the partial update (a list of messages to
append to the log). -/
def invokeNode (model : List Message → Message) (exec : ToolCall → Message) :
    Node → MessagesState → List Message
  | Node.agent, s => call_model model s
  | Node.tools, s => tool_node exec s

/-- Modelled from the spec: one engine loop, fuel-bounded by the
configured step limit (LangGraph's recursion limit; not part of the
repository source).  Each iteration invokes the current node, appends the
update to the log, persists one Checkpoint (sequence number = previous
+ 1, recording the routing decision), then follows the route; exhausting
the fuel fails with `stepLimitExceeded`. -/
def runAux (model : List Message → Message) (exec : ToolCall → Message) :
    Nat → Node → MessagesState → Nat →
    Except EngineError MessagesState × List Checkpoint
  | 0, _, _, _ => (Except.error EngineError.stepLimitExceeded, [])
  | fuel + 1, cur, s, seq =>
    let update := invokeNode model exec cur s
    let s' : MessagesState := ⟨s.messages ++ update⟩
    match nextRoute cur s' with
    | none =>
      (Except.error EngineError.routerFault, [⟨seq + 1, s'.messages, none⟩])
    | some Route.terminal =>
      (Except.ok s', [⟨seq + 1, s'.messages, some Route.terminal⟩])
    | some (Route.toNode n) =>
      let rest := runAux model exec fuel n s' (seq + 1)
      (rest.1, ⟨seq + 1, s'.messages, some (Route.toNode n)⟩ :: rest.2)

/-- Modelled from the spec: a `run` of the Execution Engine starts at the
graph's entry node with sequence number 0 and the configured step limit. -/
def run (model : List Message → Message) (exec : ToolCall → Message)
    (stepLimit : Nat) (s : MessagesState) :
    Except EngineError MessagesState × List Checkpoint :=
  runAux model exec stepLimit entryNode s 0

/-- Modelled from the spec: resuming from a Checkpoint continues at the
routing decision it recorded — the latest checkpoint is the authoritative
resumption point. -/
def resume (model : List Message → Message) (exec : ToolCall → Message)
    (stepLimit : Nat) (ck : Checkpoint) : Except EngineError MessagesState :=
  match ck.next with
  | some Route.terminal => Except.ok ⟨ck.messages⟩
  | some (Route.toNode n) =>
    (runAux model exec stepLimit n ⟨ck.messages⟩ ck.seq).1
  | none => Except.error EngineError.routerFault

/-- LangGraph's terminal marker `END` (the string `"__end__"`). -/
def endName : String := "__end__"

/-- A declarative graph definition, as handed to the compiler: declared
nodes, unconditional edges, conditional edges with their candidate target
sets, and the entry node. -/
structure GraphSpec where
  nodes : List String
  edges : List (String × String)
  condEdges : List (String × List String)
  entry : String
deriving DecidableEq, Repr

/-- All names one step after `n` in a graph definition: unconditional edge
targets plus every candidate of a conditional edge leaving `n`. -/
def succs (g : GraphSpec) (n : String) : List String :=
  (g.edges.filter (fun e => e.1 = n)).map (fun e => e.2) ++
    (g.condEdges.filter (fun e => e.1 = n)).flatMap (fun e => e.2)

/-- Names reachable from the entry in at most `k` expansion rounds. -/
def reachIter (g : GraphSpec) : Nat → List String
  | 0 => [g.entry]
  | k + 1 => reachIter g k ++ (reachIter g k).flatMap (succs g)

/-- The compile-time reachability check: the terminal marker shows up
within `|nodes| + 1` expansion rounds from the entry. -/
def endReachable (g : GraphSpec) : Bool :=
  (reachIter g (g.nodes.length + 1)).contains endName

/-- Compile-time graph validation failures, from the spec's error
taxonomy. -/
inductive GraphDefinitionError where
  | entryNotDeclared
  | edgeToUndeclared
  | condEdgeToUndeclared
  | noPathToTerminal
deriving DecidableEq, Repr

/-- A declared edge endpoint must be a declared node or the terminal
marker. -/
def validTarget (g : GraphSpec) (n : String) : Bool :=
  g.nodes.contains n || n = endName

/-- Modelled from the spec: `compile` (LangGraph's `workflow.compile`, not
part of the repository source) validates the graph definition and fails
with a `GraphDefinitionError` if the entry is undeclared, an edge or a
conditional edge's candidate references an undeclared name, or no path
leads from the entry to the terminal marker; validation is a reachability
analysis done at compile time. -/
def compile (g : GraphSpec) : Except GraphDefinitionError Unit :=
  if ¬ g.nodes.contains g.entry then
    Except.error GraphDefinitionError.entryNotDeclared
  else if ¬ g.edges.all (fun e => g.nodes.contains e.1 && validTarget g e.2) then
    Except.error GraphDefinitionError.edgeToUndeclared
  else if ¬ g.condEdges.all (fun e => g.nodes.contains e.1 && e.2.all (validTarget g)) then
    Except.error GraphDefinitionError.condEdgeToUndeclared
  else if ¬ endReachable g then
    Except.error GraphDefinitionError.noPathToTerminal
  else
    Except.ok ()

/-- `b` lies a path of zero or more declared-edge steps after `a`. -/
inductive Reaches (g : GraphSpec) : String → String → Prop
  | refl (a : String) : Reaches g a a
  | step (a b c : String) : b ∈ succs g a → Reaches g b c → Reaches g a c

/-- The workflow graph declared in the source: nodes `"tools"` and
`"agent"`, entry `"agent"` (via `add_edge(START, "agent")`), the
conditional edge leaving `"agent"` with candidates `"tools"` and `END`
(from the `Literal["tools", END]` signature of `continue_or_respond`),
and the unconditional edge `"tools" → "agent"`. -/
def researchWorkflow : GraphSpec :=
  { nodes := ["tools", "agent"]
    edges := [("tools", "agent")]
    condEdges := [("agent", ["tools", endName])]
    entry := "agent" }

example : compile researchWorkflow = Except.ok () := rfl

/-- A default tool call, used only as the `getD` fallback. -/
def defaultToolCall : ToolCall := ⟨"", "", ""⟩

instance : Inhabited ToolCall := ⟨defaultToolCall⟩

/-- Modelled from the spec: executing a batch of tool calls under an
arbitrary completion order — `order` lists the call indices in the order
the executions complete, and each completion yields the pair of its call
index and its tool-result message. -/
def scheduleExec (exec : ToolCall → Message) (calls : List ToolCall)
    (order : List Nat) : List (Nat × Message) :=
  order.map (fun i => (i, exec (calls.getD i defaultToolCall)))

/-- Modelled from the spec: after joining on all completions, the batch's
result messages are emitted in the order of the originating call indices,
not in completion order. -/
def gatherByCallOrder (n : Nat) (done : List (Nat × Message)) : List Message :=
  (List.range n).filterMap (fun i => (done.find? (fun p => p.1 == i)).map (fun p => p.2))

/-- Modelled from the spec: a Tool Node batch executed under completion
order `order` and joined back into call order. -/
def toolBatchSchedule (exec : ToolCall → Message) (calls : List ToolCall)
    (order : List Nat) : List Message :=
  gatherByCallOrder calls.length (scheduleExec exec calls order)

/-- The research result value, from `research-provider.tsx`. -/
structure ResearchResult where
  answer : String
  sources : List String
deriving DecidableEq, Repr

/-- The context value provided by `ResearchProvider`, from
`research-provider.tsx`.  The data fields are embedded; the React state
setter callbacks of `ResearchContextType` are capabilities into the
React runtime and carry no data of their own. -/
structure ResearchContextType where
  researchQuery : String
  researchInput : String
  isLoading : Bool
  researchResult : Option ResearchResult
deriving DecidableEq, Repr

/-- `useResearchContext`, translated from the source: `useContext` yields
the context value, or `undefined` when no `ResearchProvider` is above the
caller; in that case the hook throws, otherwise it returns the value. -/
def useResearchContext (ctx : Option ResearchContextType) :
    Except String ResearchContextType :=
  match ctx with
  | none => Except.error "useResearchContext must be used within a ResearchProvider"
  | some c => Except.ok c

/-- The provider's state cell contents, from the four `useState` hooks of
`ResearchProvider`. -/
structure ProviderState where
  researchQuery : String
  researchInput : String
  researchResult : Option ResearchResult
  isLoading : Bool
deriving DecidableEq, Repr

/-- The hard-coded result set by the provider's query effect, from the
source. -/
def fixedResearchResult : ResearchResult :=
  { answer := "The numbers of Tesla Model 3 cars sold in 2024 is 100,000."
    sources := ["https://tesla.com", "https://cnet.com"] }

/-- The provider's first effect, translated from the source: when
`researchQuery` is falsy (the empty string), clear `researchResult` and
`researchInput`. -/
def resetEffect (s : ProviderState) : ProviderState :=
  if s.researchQuery = "" then
    { s with researchResult := none, researchInput := "" }
  else s

/-- The provider's second effect at the moment it fires, translated from
the source: when `researchQuery` is truthy, set `isLoading` and schedule
the timeout. -/
def queryEffectStart (s : ProviderState) : ProviderState :=
  if s.researchQuery = "" then s else { s with isLoading := true }

/-- The provider's second effect once its 3-second timeout has fired,
translated from the source: loading ends and `researchResult` becomes the
fixed hard-coded result, whatever the query text was. -/
def queryEffectSettled (s : ProviderState) : ProviderState :=
  if s.researchQuery = "" then s
  else { s with isLoading := false, researchResult := some fixedResearchResult }

/-- True when the log already holds a tool-result message. -/
def hasToolMessage (msgs : List Message) : Bool :=
  msgs.any (fun m => m.role == Role.tool)

/-- A deterministic model stub realizing the spec's weather scenario: ask
for `search("sf weather")` first, answer with no tool calls once a
tool-result message is in the log. -/
def scenarioModel (msgs : List Message) : Message :=
  if hasToolMessage msgs then
    ⟨Role.assistant, "It is 60 degrees and foggy in SF.", [], none⟩
  else
    ⟨Role.assistant, "", [⟨"call_1", "search", "sf weather"⟩], none⟩

/-- The initial log of the weather scenario: one user question. -/
def scenarioInit : MessagesState :=
  ⟨[⟨Role.user, "What is the weather in sf?", [], none⟩]⟩

/-- A model stub that requests a tool call on every turn, so the run never
reaches the terminal marker. -/
def loopModel (_ : List Message) : Message :=
  ⟨Role.assistant, "", [⟨"call_loop", "search", "again"⟩], none⟩

/-- The user question opening the weather scenario. -/
def scenarioUserMsg : Message :=
  ⟨Role.user, "What is the weather in sf?", [], none⟩

/-- The assistant message carrying the `search("sf weather")` call. -/
def scenarioCallMsg : Message :=
  ⟨Role.assistant, "", [⟨"call_1", "search", "sf weather"⟩], none⟩

/-- The tool-result message the Tool Node produces for that call. -/
def scenarioToolMsg : Message :=
  ⟨Role.tool, "It's 60 degrees and foggy.", [], some "call_1"⟩

/-- The final assistant answer, with no tool calls. -/
def scenarioFinalMsg : Message :=
  ⟨Role.assistant, "It is 60 degrees and foggy in SF.", [], none⟩

/-- The final message log of the weather scenario run. -/
def scenarioFinalLog : List Message :=
  [scenarioUserMsg, scenarioCallMsg, scenarioToolMsg, scenarioFinalMsg]

/-- The three checkpoints the weather scenario run persists. -/
def scenarioCks : List Checkpoint :=
  [⟨1, [scenarioUserMsg, scenarioCallMsg], some (Route.toNode Node.tools)⟩,
   ⟨2, [scenarioUserMsg, scenarioCallMsg, scenarioToolMsg], some (Route.toNode Node.agent)⟩,
   ⟨3, scenarioFinalLog, some Route.terminal⟩]

example :
    run scenarioModel searchExec 10 scenarioInit =
      (Except.ok ⟨scenarioFinalLog⟩, scenarioCks) := rfl

/-- A one-node graph with no edges at all: nothing is reachable from its
entry, so compilation must reject it. -/
def isolatedGraph : GraphSpec :=
  { nodes := ["a"], edges := [], condEdges := [], entry := "a" }

/-- `a` strictly before `b` in the log order: `b` extends `a` by at least
one appended message. -/
def strictPrefixOf (a b : List Message) : Prop :=
  b.take a.length = a ∧ a.length < b.length

/-- The side condition the engine maintains: the Tool Node only ever runs
when the latest message requests at least one tool call. -/
def nodeReady : Node → MessagesState → Prop
  | Node.agent, _ => True
  | Node.tools, s => lastToolCalls s.messages ≠ []

/-- The spec's checkpoint chain shape, anchored at the pre-run log and
sequence number: each checkpoint strictly extends its predecessor's log
and increments the sequence number by one. -/
def ckChainFrom : List Message → Nat → List Checkpoint → Prop
  | _, _, [] => True
  | msgs, seq, ck :: rest =>
    strictPrefixOf msgs ck.messages ∧ ck.seq = seq + 1 ∧
      ckChainFrom ck.messages ck.seq rest

/-- The relation between two consecutive checkpoints of one thread: the
later one strictly extends the message log and increments the sequence
number. -/
def ckStep (a b : Checkpoint) : Prop :=
  strictPrefixOf a.messages b.messages ∧ b.seq = a.seq + 1

/-- The assistant message of the concrete two-call batch. -/
def batchMsg : Message :=
  ⟨Role.assistant, "", [⟨"call_a", "search", "sf weather"⟩,
    ⟨"call_b", "search", "nyc weather"⟩], none⟩

/-- A log whose latest message requests the two-call batch. -/
def batchState : MessagesState := ⟨[batchMsg]⟩

/-- C1: Evaluated after a Model Node step — the state being the previous
log with the model's assistant response appended by `call_model` — the
router `continue_or_respond` routes to the Tool Node exactly when that
latest assistant message's `tool_calls` sequence is nonempty, and to the
terminal marker otherwise.  As a function of the state it only reads it:
the state is not part of its output. -/
theorem c1_router_decision (model : List Message → Message) (s : MessagesState) :
    (continue_or_respond ⟨s.messages ++ call_model model s⟩ =
        some (Route.toNode Node.tools) ↔ (model s.messages).tool_calls ≠ []) ∧
    (continue_or_respond ⟨s.messages ++ call_model model s⟩ =
        some Route.terminal ↔ (model s.messages).tool_calls = []) := by
  by_cases hc : (model s.messages).tool_calls = [] <;>
    simp [continue_or_respond, call_model, List.getLast?_concat, hc]

/-- C5: The compiled graph's entry node is the Model Node `agent`, the Tool
Node's only outgoing edge leads unconditionally back to `agent`, and every
engine run starts at the entry node — so every execution starts with a
Model Node step, and every Tool Node step is immediately followed by a
Model Node step. -/
theorem c5_entry_agent_tools_edge :
    entryNode = Node.agent ∧
    (∀ s : MessagesState, nextRoute Node.tools s = some (Route.toNode Node.agent)) ∧
    (∀ (model : List Message → Message) (exec : ToolCall → Message)
        (stepLimit : Nat) (s : MessagesState),
      run model exec stepLimit s = runAux model exec stepLimit Node.agent s 0) ∧
    researchWorkflow.entry = "agent" ∧
    succs researchWorkflow "tools" = ["agent"] :=
  ⟨rfl, fun _ => rfl, fun _ _ _ _ => rfl, rfl, by decide⟩

/-- C9: `useResearchContext` returns the provider's context value when one
is present, and throws the error
`"useResearchContext must be used within a ResearchProvider"` exactly when
the context value is `undefined` (no `ResearchProvider` above the
caller). -/
theorem c9_useResearchContext_guard :
    (∀ c : ResearchContextType, useResearchContext (some c) = Except.ok c) ∧
    (∀ ctx : Option ResearchContextType,
      useResearchContext ctx =
          Except.error "useResearchContext must be used within a ResearchProvider" ↔
        ctx = none) := by
  refine ⟨fun c => rfl, fun ctx => ?_⟩
  cases ctx <;> simp [useResearchContext]

/-- C10: Whatever nonempty `researchQuery` is set, the provider's query
effect eventually stores the same fixed `researchResult` — the result is
independent of the query's content — and whenever `researchQuery` is
empty, the reset effect clears `researchResult` to `null` and
`researchInput` to the empty string. -/
theorem c10_result_independent_of_query :
    (∀ s : ProviderState, s.researchQuery ≠ "" →
      (queryEffectSettled s).researchResult = some fixedResearchResult) ∧
    (∀ s₁ s₂ : ProviderState, s₁.researchQuery ≠ "" → s₂.researchQuery ≠ "" →
      (queryEffectSettled s₁).researchResult = (queryEffectSettled s₂).researchResult) ∧
    (∀ s : ProviderState, s.researchQuery = "" →
      (resetEffect s).researchResult = none ∧ (resetEffect s).researchInput = "") := by
  refine ⟨fun s h => by simp [queryEffectSettled, h], fun s₁ s₂ h₁ h₂ => ?_,
    fun s h => by simp [resetEffect, h]⟩
  simp [queryEffectSettled, h₁, h₂]

/-- C6: `search` returns the foggy line exactly when the lower-cased query
contains `"sf"` or `"san francisco"` as a substring, and the sunny line
otherwise; in particular the scenario call `search("sf weather")` produces
a tool-result message with content `"It's 60 degrees and foggy."`. -/
theorem c6_search_tool :
    (∀ q : String,
      (search q = "It's 60 degrees and foggy." ↔
        (strContains (strToLower q) "sf" = true ∨
          strContains (strToLower q) "san francisco" = true)) ∧
      (search q = "It's 90 degrees and sunny." ↔
        ¬(strContains (strToLower q) "sf" = true ∨
          strContains (strToLower q) "san francisco" = true))) ∧
    search "sf weather" = "It's 60 degrees and foggy." ∧
    tool_node searchExec ⟨[scenarioUserMsg, scenarioCallMsg]⟩ = [scenarioToolMsg] := by
  refine ⟨fun q => ?_, by decide, rfl⟩
  by_cases h1 : strContains (strToLower q) "sf" = true <;>
  by_cases h2 : strContains (strToLower q) "san francisco" = true <;>
    simp [search, h1, h2]

/-- Each engine loop iteration persists one checkpoint, so a run bounded by
`fuel` iterations persists at most `fuel` checkpoints. -/
theorem runAux_cks_length_le (model : List Message → Message) (exec : ToolCall → Message) :
    ∀ (fuel : Nat) (cur : Node) (s : MessagesState) (seq : Nat),
      (runAux model exec fuel cur s seq).2.length ≤ fuel := by
  intro fuel
  induction fuel with
  | zero => intro cur s seq; simp [runAux]
  | succ f ih =>
    intro cur s seq
    cases hroute : nextRoute cur ⟨s.messages ++ invokeNode model exec cur s⟩ with
    | none => simp [runAux, hroute]
    | some r =>
      cases r with
      | terminal => simp [runAux, hroute]
      | toNode n =>
        simp only [runAux, hroute, List.length_cons]
        exact Nat.succ_le_succ (ih n _ _)

/-- Under the model stub that requests a tool call on every turn, the run
never reaches the terminal marker and every fuel bound is exhausted. -/
theorem runAux_loopModel_exceeds (exec : ToolCall → Message) :
    ∀ (fuel : Nat) (cur : Node) (s : MessagesState) (seq : Nat),
      (runAux loopModel exec fuel cur s seq).1 =
        Except.error EngineError.stepLimitExceeded := by
  intro fuel
  induction fuel with
  | zero => intro cur s seq; rfl
  | succ f ih =>
    intro cur s seq
    cases cur with
    | agent =>
      have hroute : nextRoute Node.agent
          ⟨s.messages ++ invokeNode loopModel exec Node.agent s⟩ =
          some (Route.toNode Node.tools) := by
        simp [nextRoute, continue_or_respond, invokeNode, call_model, loopModel,
          List.getLast?_concat]
      simp only [runAux, hroute]
      exact ih Node.tools _ _
    | tools =>
      simp only [runAux, nextRoute]
      exact ih Node.agent _ _

/-- C2: Each `run` of the Execution Engine performs at most the configured
maximum number of loop iterations (each iteration persisting exactly one
checkpoint), and a run that would exceed this maximum — here one driven by
a model stub that requests a tool call on every turn — fails with
`StepLimitExceededError` instead of looping: `run` is total by
construction. -/
theorem c2_step_limit_enforced :
    (∀ (model : List Message → Message) (exec : ToolCall → Message)
        (stepLimit : Nat) (s : MessagesState),
      (run model exec stepLimit s).2.length ≤ stepLimit) ∧
    (∀ (exec : ToolCall → Message) (stepLimit : Nat) (s : MessagesState),
      (run loopModel exec stepLimit s).1 =
        Except.error EngineError.stepLimitExceeded) :=
  ⟨fun model exec stepLimit s => runAux_cks_length_le model exec stepLimit entryNode s 0,
   fun exec stepLimit s => runAux_loopModel_exceeds exec stepLimit entryNode s 0⟩

/-- Appending one more edge step to a path. -/
theorem reaches_snoc (g : GraphSpec) :
    ∀ {a b : String}, Reaches g a b → ∀ {c : String}, c ∈ succs g b → Reaches g a c := by
  intro a b hab
  induction hab with
  | refl x => intro c hc; exact Reaches.step x c c hc (Reaches.refl c)
  | step x y z hxy _ ih => intro c hc; exact Reaches.step x y c hxy (ih hc)

/-- Every name produced by the iterated expansion lies on a path from the
entry. -/
theorem reachIter_sound (g : GraphSpec) :
    ∀ (k : Nat) (x : String), x ∈ reachIter g k → Reaches g g.entry x := by
  intro k
  induction k with
  | zero =>
    intro x hx
    simp [reachIter] at hx
    subst hx
    exact Reaches.refl _
  | succ n ih =>
    intro x hx
    simp only [reachIter, List.mem_append, List.mem_flatMap] at hx
    rcases hx with hx | ⟨y, hy, hxy⟩
    · exact ih x hx
    · exact reaches_snoc g (ih y hy) hxy

/-- Soundness of the compile-time reachability analysis: a successfully
compiled graph has a path from its entry to the terminal marker. -/
theorem compile_ok_reaches (g : GraphSpec) (hok : compile g = Except.ok ()) :
    Reaches g g.entry endName := by
  unfold compile at hok
  split_ifs at hok with h1 h2 h3 h4
  have h6 : endName ∈ reachIter g (g.nodes.length + 1) := by
    have := h4
    simp only [endReachable, List.contains] at this
    exact List.elem_iff.mp this
  exact reachIter_sound g _ _ h6

/-- No name other than a node's own is reachable in the edgeless graph. -/
theorem isolatedGraph_reaches_eq :
    ∀ {x y : String}, Reaches isolatedGraph x y → x = y := by
  intro x y h
  induction h with
  | refl a => rfl
  | step a b c hmem _ _ => exact absurd hmem (by simp [succs, isolatedGraph])

/-- The edgeless one-node graph has no path from its entry to the terminal
marker. -/
theorem isolatedGraph_no_path :
    ¬ Reaches isolatedGraph isolatedGraph.entry endName := by
  intro h
  have := isolatedGraph_reaches_eq h
  simp [isolatedGraph, endName] at this

/-- C3: For every graph on which `compile` succeeds, the terminal marker is
reachable from the entry node, and `compile` rejects — with a
`GraphDefinitionError`, before any run happens — every graph with no path
from the entry to the terminal marker. -/
theorem c3_compile_requires_reachability (g : GraphSpec) :
    (compile g = Except.ok () → Reaches g g.entry endName) ∧
    (¬ Reaches g g.entry endName → ∃ e, compile g = Except.error e) := by
  refine ⟨compile_ok_reaches g, fun hn => ?_⟩
  cases hc : compile g with
  | ok u => cases u; exact absurd (compile_ok_reaches g hc) hn
  | error e => exact ⟨e, rfl⟩

/-- Closed witness for C3: the workflow graph of the source compiles and
indeed reaches the terminal marker, while the edgeless one-node graph is
rejected by `compile`. -/
theorem c3_compile_requires_reachability_w :
    Reaches researchWorkflow researchWorkflow.entry endName ∧
    (∃ e, compile isolatedGraph = Except.error e) :=
  ⟨(c3_compile_requires_reachability researchWorkflow).1 rfl,
   (c3_compile_requires_reachability isolatedGraph).2 isolatedGraph_no_path⟩

/-- Appending a nonempty update yields a strict extension of the log. -/
theorem strictPrefixOf_append (a u : List Message) (h : u ≠ []) :
    strictPrefixOf a (a ++ u) := by
  refine ⟨List.take_left a u, ?_⟩
  simp only [List.length_append]
  exact Nat.lt_add_of_pos_right (List.length_pos.mpr h)

/-- The engine invariant behind the append-only checkpoint log: starting
from a node that is ready to run (the Tool Node only ever runs with a
pending tool call), every persisted checkpoint strictly extends its
predecessor's message log and increments the sequence number by one. -/
theorem runAux_ckChain (model : List Message → Message) (exec : ToolCall → Message) :
    ∀ (fuel : Nat) (cur : Node) (s : MessagesState) (seq : Nat), nodeReady cur s →
      ckChainFrom s.messages seq (runAux model exec fuel cur s seq).2 := by
  intro fuel
  induction fuel with
  | zero => intro cur s seq _; simp [runAux, ckChainFrom]
  | succ f ih =>
    intro cur s seq hready
    cases cur with
    | agent =>
      cases hm : (model s.messages).tool_calls with
      | nil =>
        have hroute : nextRoute Node.agent ⟨s.messages ++ [model s.messages]⟩ =
            some Route.terminal := by
          simp [nextRoute, continue_or_respond, List.getLast?_concat, hm]
        simp only [runAux, invokeNode, call_model, hroute]
        exact ⟨strictPrefixOf_append _ _ (by simp), rfl, trivial⟩
      | cons c cs =>
        have hroute : nextRoute Node.agent ⟨s.messages ++ [model s.messages]⟩ =
            some (Route.toNode Node.tools) := by
          simp [nextRoute, continue_or_respond, List.getLast?_concat, hm]
        have hready' : nodeReady Node.tools ⟨s.messages ++ [model s.messages]⟩ := by
          simp [nodeReady, lastToolCalls, List.getLast?_concat, hm]
        simp only [runAux, invokeNode, call_model, hroute]
        exact ⟨strictPrefixOf_append _ _ (by simp), rfl, ih Node.tools _ _ hready'⟩
    | tools =>
      have hne : tool_node exec s ≠ [] := by
        simp only [tool_node, ne_eq, List.map_eq_nil_iff]
        exact hready
      simp only [runAux, invokeNode, nextRoute]
      exact ⟨strictPrefixOf_append _ _ hne, rfl, ih Node.agent _ _ trivial⟩

/-- The anchored chain shape implies the pairwise consecutive-checkpoint
relation. -/
theorem ckChainFrom_chain' :
    ∀ (cks : List Checkpoint) (msgs : List Message) (seq : Nat),
      ckChainFrom msgs seq cks → List.Chain' ckStep cks := by
  intro cks
  induction cks with
  | nil => intro _ _ _; exact List.chain'_nil
  | cons ck rest ih =>
    intro msgs seq h
    rcases h with ⟨_, _, hrest⟩
    refine List.chain'_cons'.mpr ⟨?_, ih _ _ hrest⟩
    intro b hb
    cases rest with
    | nil => simp at hb
    | cons ck₂ rest₂ =>
      simp only [List.head?_cons, Option.mem_def, Option.some.injEq] at hb
      subst hb
      rcases hrest with ⟨hsp, hsq, _⟩
      exact ⟨hsp, hsq⟩

/-- C4: Every pair of consecutive checkpoints a run produces is related by
`ckStep`: the earlier message log is a strict prefix of the later one —
each step appends at least one message and never removes, rewrites or
reorders existing ones — and sequence numbers grow by exactly one. -/
theorem c4_checkpoint_log_append_only
    (model : List Message → Message) (exec : ToolCall → Message)
    (stepLimit : Nat) (s : MessagesState) (res : Except EngineError MessagesState)
    (cks : List Checkpoint) (h : run model exec stepLimit s = (res, cks)) :
    List.Chain' ckStep cks := by
  have hchain := runAux_ckChain model exec stepLimit entryNode s 0 trivial
  have h2 : (runAux model exec stepLimit entryNode s 0).2 = cks := by
    have : run model exec stepLimit s = (res, cks) := h
    unfold run at this
    rw [this]
  rw [h2] at hchain
  exact ckChainFrom_chain' cks s.messages 0 hchain

/-- Closed witness for C4: the three checkpoints of the weather scenario
run form a `ckStep` chain. -/
theorem c4_checkpoint_log_append_only_w : List.Chain' ckStep scenarioCks :=
  c4_checkpoint_log_append_only scenarioModel searchExec 10 scenarioInit
    (Except.ok ⟨scenarioFinalLog⟩) scenarioCks rfl

/-- A run that completes within a fuel bound completes with the same final
state under any larger bound. -/
theorem runAux_fst_mono (model : List Message → Message) (exec : ToolCall → Message) :
    ∀ (fuel : Nat) (cur : Node) (s : MessagesState) (seq : Nat) (final : MessagesState),
      (runAux model exec fuel cur s seq).1 = Except.ok final →
      (runAux model exec (fuel + 1) cur s seq).1 = Except.ok final := by
  intro fuel
  induction fuel with
  | zero => intro cur s seq final h; simp [runAux] at h
  | succ f ih =>
    intro cur s seq final h
    cases hroute : nextRoute cur ⟨s.messages ++ invokeNode model exec cur s⟩ with
    | none =>
      simp only [runAux, hroute] at h
      exact Except.noConfusion h
    | some r =>
      cases r with
      | terminal =>
        simp only [runAux, hroute] at h ⊢
        exact h
      | toNode n =>
        simp only [runAux, hroute] at h ⊢
        exact ih n _ _ final h

/-- Resumption that succeeds under a fuel bound succeeds identically under
any larger bound. -/
theorem resume_mono (model : List Message → Message) (exec : ToolCall → Message)
    (fuel : Nat) (ck : Checkpoint) (final : MessagesState)
    (h : resume model exec fuel ck = Except.ok final) :
    resume model exec (fuel + 1) ck = Except.ok final := by
  cases hnext : ck.next with
  | none =>
    simp only [resume, hnext] at h
    exact Except.noConfusion h
  | some r =>
    cases r with
    | terminal =>
      simp only [resume, hnext] at h ⊢
      exact h
    | toNode n =>
      simp only [resume, hnext] at h ⊢
      exact runAux_fst_mono model exec fuel n _ _ final h

/-- Any checkpoint persisted by a completed run resumes — under the same
step limit — to the run's final state. -/
theorem runAux_resume (model : List Message → Message) (exec : ToolCall → Message) :
    ∀ (fuel : Nat) (cur : Node) (s : MessagesState) (seq : Nat)
      (final : MessagesState) (cks : List Checkpoint) (ck : Checkpoint),
      runAux model exec fuel cur s seq = (Except.ok final, cks) →
      ck ∈ cks →
      resume model exec fuel ck = Except.ok final := by
  intro fuel
  induction fuel with
  | zero =>
    intro cur s seq final cks ck h _
    simp only [runAux, Prod.mk.injEq] at h
    exact Except.noConfusion h.1
  | succ f ih =>
    intro cur s seq final cks ck h hmem
    cases hroute : nextRoute cur ⟨s.messages ++ invokeNode model exec cur s⟩ with
    | none =>
      simp only [runAux, hroute, Prod.mk.injEq] at h
      exact absurd h.1 (by simp)
    | some r =>
      cases r with
      | terminal =>
        simp only [runAux, hroute, Prod.mk.injEq] at h
        rcases h with ⟨hfin, hcks⟩
        have hfin' : (⟨s.messages ++ invokeNode model exec cur s⟩ : MessagesState) = final :=
          Except.ok.inj hfin
        subst hcks
        simp only [List.mem_singleton] at hmem
        subst hmem
        simp only [resume]
        rw [← hfin']
      | toNode n =>
        simp only [runAux, hroute, Prod.mk.injEq] at h
        rcases h with ⟨hfin, hcks⟩
        subst hcks
        rcases List.mem_cons.mp hmem with hck | hck
        · subst hck
          simp only [resume]
          exact runAux_fst_mono model exec f n _ _ final hfin
        · have hrun : runAux model exec f n ⟨s.messages ++ invokeNode model exec cur s⟩
              (seq + 1) =
              (Except.ok final,
                (runAux model exec f n ⟨s.messages ++ invokeNode model exec cur s⟩
                  (seq + 1)).2) := by
            exact Prod.ext hfin rfl
          exact resume_mono model exec f ck final (ih n _ _ final _ ck hrun hck)

/-- C8: With deterministic Model and Tool functions, resuming from any
checkpoint of a completed run and continuing to the terminal marker yields
the same final message log as the uninterrupted run. -/
theorem c8_resume_replay (model : List Message → Message) (exec : ToolCall → Message)
    (stepLimit : Nat) (s : MessagesState) (final : MessagesState)
    (cks : List Checkpoint) (ck : Checkpoint)
    (h : run model exec stepLimit s = (Except.ok final, cks)) (hmem : ck ∈ cks) :
    resume model exec stepLimit ck = Except.ok final :=
  runAux_resume model exec stepLimit entryNode s 0 final cks ck h hmem

/-- Closed witness for C8: resuming the weather scenario run from its
mid-run checkpoint (after the tool step) reproduces the uninterrupted
final log. -/
theorem c8_resume_replay_w :
    resume scenarioModel searchExec 10
        ⟨2, [scenarioUserMsg, scenarioCallMsg, scenarioToolMsg],
          some (Route.toNode Node.agent)⟩ =
      Except.ok ⟨scenarioFinalLog⟩ :=
  c8_resume_replay scenarioModel searchExec 10 scenarioInit ⟨scenarioFinalLog⟩
    scenarioCks _ rfl (by decide)

/-- Looking up a call index in the completion list finds that call's own
result, whatever order the completions arrived in. -/
theorem find?_map_pair {β : Type} (f : Nat → β) (i : Nat) :
    ∀ order : List Nat, i ∈ order →
      (order.map (fun j => (j, f j))).find? (fun p => p.1 == i) = some (i, f i) := by
  intro order
  induction order with
  | nil => intro hi; simp at hi
  | cons j t ih =>
    intro hi
    rw [List.map_cons]
    by_cases hji : j = i
    · subst hji
      exact List.find?_cons_of_pos _ (by simp)
    · rw [List.find?_cons_of_neg _ (by simp [hji])]
      rcases List.mem_cons.mp hi with h | h
      · exact absurd h.symm hji
      · exact ih h

/-- `filterMap` by a function that always succeeds is a `map`. -/
theorem filterMap_eq_map_of_some {α β : Type} (g : α → β) :
    ∀ (l : List α) (f : α → Option β), (∀ x ∈ l, f x = some (g x)) →
      l.filterMap f = l.map g := by
  intro l
  induction l with
  | nil => intro f _; rfl
  | cons a t ih =>
    intro f h
    have ha := h a (List.mem_cons_self a t)
    simp [List.filterMap_cons, ha, ih f (fun x hx => h x (List.mem_cons_of_mem a hx))]

/-- Mapping a function over the index range of a list is mapping it over
the list. -/
theorem map_range_getD {α β : Type} (f : α → β) (d : α) :
    ∀ l : List α, (List.range l.length).map (fun i => f (l.getD i d)) = l.map f := by
  intro l
  induction l with
  | nil => rfl
  | cons a t ih =>
    simp only [List.length_cons, List.range_succ_eq_map, List.map_cons, List.map_map,
      List.getD_cons_zero, List.map_cons]
    refine congrArg (f a :: ·) ?_
    rw [← ih]
    exact List.map_congr_left (fun i _ => rfl)

/-- Joining a tool batch back into call order is independent of the
completion order: any permutation of the call indices gathers to the
in-order result list. -/
theorem toolBatchSchedule_eq (exec : ToolCall → Message) (calls : List ToolCall)
    (order : List Nat) (hperm : order.Perm (List.range calls.length)) :
    toolBatchSchedule exec calls order = calls.map exec := by
  unfold toolBatchSchedule gatherByCallOrder scheduleExec
  rw [filterMap_eq_map_of_some (fun i => exec (calls.getD i defaultToolCall))]
  · exact map_range_getD exec defaultToolCall calls
  · intro i hi
    rw [find?_map_pair (fun j => exec (calls.getD j defaultToolCall)) i order
      (hperm.mem_iff.mpr hi)]
    rfl

/-- Indexing into a mapped list below its length. -/
theorem getD_map_lt {α β : Type} (f : α → β) (d : α) (dd : β) :
    ∀ (l : List α) (i : Nat), i < l.length → (l.map f).getD i dd = f (l.getD i d) := by
  intro l
  induction l with
  | nil => intro i hi; simp at hi
  | cons a t ih =>
    intro i hi
    cases i with
    | zero => rfl
    | succ n =>
      simp only [List.map_cons, List.getD_cons_succ]
      exact ih n (by simpa using hi)

/-- C7: For a batch of `N` tool calls requested by the latest message, the
Tool Node appends exactly `N` tool-result messages, one per call and in
the order of the originating `tool_calls` sequence, regardless of the
order in which the individual executions complete; with the `search`
registry each result is a `tool`-role message whose `tool_call_id`
references the originating call at the same position. -/
theorem c7_tool_results_in_call_order (exec : ToolCall → Message)
    (s : MessagesState) (last : Message)
    (hlast : s.messages.getLast? = some last) :
    (tool_node exec s).length = last.tool_calls.length ∧
    tool_node exec s = last.tool_calls.map exec ∧
    (∀ order : List Nat, order.Perm (List.range last.tool_calls.length) →
      toolBatchSchedule exec last.tool_calls order = tool_node exec s) ∧
    (∀ i, i < last.tool_calls.length →
      ((tool_node searchExec s).getD i defaultMessage).role = Role.tool ∧
      ((tool_node searchExec s).getD i defaultMessage).tool_call_id =
        some ((last.tool_calls.getD i defaultToolCall).id)) := by
  have htn : ∀ e : ToolCall → Message, tool_node e s = last.tool_calls.map e := by
    intro e
    simp [tool_node, lastToolCalls, hlast]
  refine ⟨by rw [htn]; exact List.length_map _ _, htn exec, ?_, ?_⟩
  · intro order hperm
    rw [htn, toolBatchSchedule_eq exec _ order hperm]
  · intro i hi
    rw [htn searchExec, getD_map_lt searchExec defaultToolCall defaultMessage _ i hi]
    exact ⟨rfl, rfl⟩

/-- Closed witness for C7: the two-call batch, completed in reversed order
`[1, 0]`, still gathers to the Tool Node's in-call-order output, and the
second result message references the second call. -/
theorem c7_tool_results_in_call_order_w :
    toolBatchSchedule searchExec batchMsg.tool_calls [1, 0] =
      tool_node searchExec batchState ∧
    ((tool_node searchExec batchState).getD 1 defaultMessage).tool_call_id =
      some ((batchMsg.tool_calls.getD 1 defaultToolCall).id) :=
  ⟨(c7_tool_results_in_call_order searchExec batchState batchMsg rfl).2.2.1
      [1, 0] (by decide),
   ((c7_tool_results_in_call_order searchExec batchState batchMsg rfl).2.2.2
      1 (by decide)).2⟩

/-- Closed witness for C10: two different nonempty queries produce the
identical fixed result, and the empty query resets result and input. -/
theorem c10_result_independent_of_query_w :
    (queryEffectSettled ⟨"tesla sales 2024", "tesla sales 2024", none, true⟩).researchResult =
      some fixedResearchResult ∧
    (queryEffectSettled ⟨"tesla sales 2024", "tesla sales 2024", none, true⟩).researchResult =
      (queryEffectSettled ⟨"weather in sf", "weather in sf", none, true⟩).researchResult ∧
    ((resetEffect ⟨"", "old input", some fixedResearchResult, false⟩).researchResult = none ∧
      (resetEffect ⟨"", "old input", some fixedResearchResult, false⟩).researchInput = "") :=
  ⟨c10_result_independent_of_query.1 _ (by decide),
   c10_result_independent_of_query.2.1 _ _ (by decide) (by decide),
   c10_result_independent_of_query.2.2 _ rfl⟩
